import Mathlib

/-!
Verification of the grit repository-analytics engine (todd-bush/grit).

Shallow embedding of the core pipeline: the fame author-statistics reducer
(src/fame.rs), the effort per-file reducer (src/effort.rs), the by-date
calendar bucketer (src/by_date.rs), and the two commit-range resolvers
(src/utils.rs grit_utils and src/git_utils.rs git_utils).

Modelling conventions:
- Strings model Rust String values (author names, commit ids, file paths).
- i32 and i64 are modelled as Int, usize as Nat; no claim here depends on
  machine-width overflow, and all counts stay far below 2^31.
- HashSet String is modelled as Finset String (unordered, deduplicated;
  only membership and len are consumed by the code).
- HashMap accumulation is modelled as an association list in first-insertion
  order.  HashMap iteration order is unspecified in Rust; this is one
  deterministic realization of it.  All totals, sets and percentages are
  independent of that order; only the pre-sort output order depends on it.
- f64 arithmetic appears only as count / denominator in fame percentages.
  It is modelled by exact rational division plus the IEEE special cases for
  a zero denominator (0/0 = NaN, x/0 = +-inf); rounding of nonzero results
  is ignored since no claim depends on it.
- A Rust panic (index out of range, unwrap of Err) and a non-terminating
  loop are both modelled as the value none of an Option result.
- A git2 revwalk with sorting TIME is modelled as a list of
  (commit id, commit time in seconds) pairs in newest-first order; the
  REVERSE flag yields the reverse of that list.  The git2 guarantee that
  the TIME walk is sorted by non-increasing commit time is taken as a
  hypothesis where a claim needs it.
- Local-time calendar conversion is parametrized by a fixed UTC offset
  tz in seconds; instants are seconds since the Unix epoch.
-/

/-- One record of the ieee-flavoured f64 results produced by the fame
percentage computation: NaN, +infinity, -infinity, or a finite value
represented exactly as a rational. -/
inductive FVal where
  | nan : FVal
  | inf : FVal
  | ninf : FVal
  | val : ℚ → FVal
deriving DecidableEq

/-- IEEE-754 division of two finite values, exact on the finite quotient:
a zero denominator gives NaN (for a zero numerator) or a signed infinity,
exactly as `as f64 /` does in Fame::calculate_stats; rounding of finite
quotients is not modelled. -/
def fdiv (a b : ℚ) : FVal :=
  if b = 0 then
    (if a = 0 then FVal.nan else if 0 < a then FVal.inf else FVal.ninf)
  else FVal.val (a / b)

/-- The i32/i64 comparator Ord::cmp, as used by sort_by in fame.rs,
effort.rs and the derived Ord of by_date.rs. -/
def intCmp (a b : Int) : Ordering :=
  if a < b then Ordering.lt else if a = b then Ordering.eq else Ordering.gt

/-- Stable insertion of one element into a list ordered by a comparator:
the element passes over exactly the strictly-smaller (comparator gt) head
elements.  Used to model Rust Vec::sort_by, which is a stable sort. -/
def insertOrd {α : Type} (c : α → α → Ordering) (x : α) : List α → List α
  | [] => [x]
  | y :: ys =>
    match c x y with
    | Ordering.gt => y :: insertOrd c x ys
    | _ => x :: y :: ys

/-- Stable sort by a comparator, modelling Rust Vec::sort_by /
Vec::sort: elements comparing equal keep their input order. -/
def sortByOrd {α : Type} (c : α → α → Ordering) : List α → List α
  | [] => []
  | x :: xs => insertOrd c x (sortByOrd c xs)

/-- fame.rs BlameEntry: one per (author, commit) pair observed while
blaming one file, with the accumulated hunk line count. -/
structure BlameEntry where
  author : String
  commit_id : String
  lines : Int
  file_name : String
deriving DecidableEq

/-- The accumulation-phase fields of fame.rs AuthorStats (lines, filenames,
commits); the derived counts and percentages are filled in afterwards. -/
structure AuthorAcc where
  lines : Int
  filenames : Finset String
  commits : Finset String
deriving DecidableEq

/-- AuthorStats::new restricted to the accumulated fields. -/
def AuthorAcc.new : AuthorAcc := { lines := 0, filenames := ∅, commits := ∅ }

/-- fame.rs AuthorStats after Fame::calculate_stats has filled every
field. -/
structure AuthorStats where
  author : String
  lines : Int
  file_count : Nat
  filenames : Finset String
  commits : Finset String
  commits_count : Int
  perc_lines : FVal
  perc_files : FVal
  perc_commits : FVal
deriving DecidableEq

/-- HashMap::entry(key).or_insert-then-update on an association list kept
in first-insertion order: update the existing entry for the key, or append
a fresh entry built from AuthorAcc.new. -/
def updateAssoc (l : List (String × AuthorAcc)) (k : String)
    (f : AuthorAcc → AuthorAcc) : List (String × AuthorAcc) :=
  match l with
  | [] => [(k, f AuthorAcc.new)]
  | (k1, v) :: rest =>
    if k1 = k then (k1, f v) :: rest else (k1, v) :: updateAssoc rest k f

/-- The mutable state of the accumulation loop of Fame::calculate_stats:
the per-author map, the global distinct-commit set, and the running total
line count. -/
structure CalcState where
  assoc : List (String × AuthorAcc)
  total_commits : Finset String
  total_lines : Int
deriving DecidableEq

/-- One iteration of the accumulation loop of Fame::calculate_stats over a
single BlameEntry: skip restricted authors, otherwise update the author's
entry and the global totals. -/
def calcStep (restrict : Option (List String)) (st : CalcState)
    (e : BlameEntry) : CalcState :=
  let skip : Bool :=
    match restrict with
    | some ra => ra.contains e.author
    | none => false
  if skip then st
  else
    { assoc := updateAssoc st.assoc e.author (fun s =>
        { lines := s.lines + e.lines
          filenames := insert e.file_name s.filenames
          commits := insert e.commit_id s.commits })
      total_commits := insert e.commit_id st.total_commits
      total_lines := st.total_lines + e.lines }

/-- The whole accumulation loop of Fame::calculate_stats. -/
def calcAcc (restrict : Option (List String)) (entries : List BlameEntry) :
    CalcState :=
  entries.foldl (calcStep restrict) { assoc := [], total_commits := ∅, total_lines := 0 }

/-- The per-author finalization map of Fame::calculate_stats: derive the
counts and divide by the global denominators. -/
def finalizeStats (total_files : Nat) (total_commits_len : Nat)
    (total_lines : Int) (p : String × AuthorAcc) : AuthorStats :=
  { author := p.1
    lines := p.2.lines
    file_count := p.2.filenames.card
    filenames := p.2.filenames
    commits := p.2.commits
    commits_count := (p.2.commits.card : Int)
    perc_lines := fdiv (p.2.lines : ℚ) (total_lines : ℚ)
    perc_files := fdiv (p.2.filenames.card : ℚ) (total_files : ℚ)
    perc_commits := fdiv (p.2.commits.card : ℚ) (total_commits_len : ℚ) }

/-- The sort key selected by the match on args.sort in
Fame::calculate_stats: loc sorts by lines, files by file_count, anything
else (including the absent default) by commits_count.  file_count (usize)
is cast to Int, which preserves its order. -/
def sortKeyInt (sort : Option String) (s : AuthorStats) : Int :=
  match sort with
  | some k =>
    if k = "loc" then s.lines
    else if k = "files" then (s.file_count : Int)
    else s.commits_count
  | none => s.commits_count

namespace Fame

/-- Fame::calculate_stats: accumulate the blame entries, compute the
global denominators (total_files is the SUM over authors of their
distinct-file counts, total_commits the global distinct-commit set),
finalize each author with percentages, and stably sort descending by the
requested key.  Returns (output, total_lines, total_files,
total_commits.len()). -/
def calculate_stats (entries : List BlameEntry)
    (restrict_authors : Option (List String)) (sort : Option String) :
    List AuthorStats × Int × Nat × Nat :=
  let st := calcAcc restrict_authors entries
  let total_files := (st.assoc.map (fun p => p.2.filenames.card)).sum
  let pre := st.assoc.map
    (finalizeStats total_files st.total_commits.card st.total_lines)
  let output := sortByOrd
    (fun a b => intCmp (sortKeyInt sort b) (sortKeyInt sort a)) pre
  (output, st.total_lines, total_files, st.total_commits.card)

/-- The fan-in of Fame::process_files, applied to the per-task outcomes:
results is one Except per spawned file task (ok carries the file's blame
entries, error models a logged per-file failure).  The code keeps only the
ok results (filter_map(r.ok)) and flattens them, so failed files are
dropped and the run completes. -/
def process_files (task_results : List (Except Unit (List BlameEntry))) :
    List BlameEntry :=
  (task_results.filterMap (fun r => r.toOption)).flatten

end Fame

/-- The per-task progress side effect shared by Fame::process_files and
Effort::process: the shared ProgressBar is inc(1)-ed inside the success
map of the task, and the error path only logs.  One task contributes one
increment exactly when its result is ok. -/
def taskIncrement {α : Type} (r : Except Unit α) : Nat :=
  match r with
  | Except.ok _ => 1
  | Except.error _ => 0

/-- Total number of progress increments performed after all tasks
complete. -/
def progressTotal {α : Type} (task_results : List (Except Unit α)) : Nat :=
  task_results.foldl (fun n r => n + taskIncrement r) 0

/-- Bool-valued success test on a task result. -/
def exceptIsOk {ε α : Type} (r : Except ε α) : Bool :=
  match r with
  | Except.ok _ => true
  | Except.error _ => false

/-- effort.rs EffortOutput: per-file distinct-commit and distinct
active-day counts. -/
structure EffortOutput where
  file : String
  commits : Int
  active_days : Int
deriving DecidableEq

namespace Effort

/-- The fan-in of Effort::process, applied to the per-task outcomes: the
code runs jh_results.into_iter().map(|jh| jh.unwrap().unwrap()), so the
first per-file error panics and aborts the whole run (modelled as none);
only an all-ok run produces the collected list. -/
def process_results (task_results : List (Except Unit EffortOutput)) :
    Option (List EffortOutput) :=
  task_results.mapM (fun r => r.toOption)

end Effort

namespace grit_utils

/-- Loop body of grit_utils::find_commit_range over one revwalk: assign
the id to the slot while the predicate on the commit time holds, break at
the first commit where it fails, returning the last assignment. -/
def scanAssign (p : Int → Bool) (acc : Option String) :
    List (String × Int) → Option String
  | [] => acc
  | (id, t) :: rest => if p t then scanAssign p (some id) rest else acc

/-- utils.rs grit_utils::find_commit_range.  walk is the TIME-sorted
(newest-first) revwalk from HEAD as (commit id, seconds) pairs.  A present
start bound scans the newest-first walk assigning earliest while
time >= start; a present end bound scans the REVERSE|TIME (oldest-first)
walk assigning latest while time <= end.  An absent bound leaves its slot
None. -/
def find_commit_range (walk : List (String × Int))
    (start_date end_date : Option Int) : Option String × Option String :=
  (match start_date with
   | none => none
   | some sd => scanAssign (fun t => decide (sd ≤ t)) none walk,
   match end_date with
   | none => none
   | some ed => scanAssign (fun t => decide (t ≤ ed)) none walk.reverse)

end grit_utils

namespace git_utils

/-- One iteration of the range-scan loop of git_utils::find_commit_range:
on the newest-first walk, fill earliest with the first commit whose time
is >= start, and latest with the first commit whose time is <= end, each
only while still unset. -/
def rangeStep (start_date end_date : Option Int)
    (acc : Option String × Option String) (p : String × Int) :
    Option String × Option String :=
  let e1 :=
    match start_date with
    | some sd => if sd ≤ p.2 ∧ acc.1 = none then some p.1 else acc.1
    | none => acc.1
  let l1 :=
    match end_date with
    | some ed => if p.2 ≤ ed ∧ acc.2 = none then some p.1 else acc.2
    | none => acc.2
  (e1, l1)

/-- git_utils.rs git_utils::find_commit_range.  walk is the TIME-sorted
(newest-first) revwalk from HEAD.  When start_date is absent the code
takes the first commit of the REVERSE|TIME walk (the oldest commit) as
earliest; when end_date is absent it takes the first commit of the TIME
walk (the newest commit) as latest; when either bound is present it scans
the newest-first walk with rangeStep. -/
def find_commit_range (walk : List (String × Int))
    (start_date end_date : Option Int) : Option String × Option String :=
  let earliest0 :=
    if start_date.isNone then (walk.reverse.head?).map Prod.fst else none
  let latest0 :=
    if end_date.isNone then (walk.head?).map Prod.fst else none
  if start_date.isSome || end_date.isSome then
    walk.foldl (rangeStep start_date end_date) (earliest0, latest0)
  else (earliest0, latest0)

end git_utils

/-- utils.rs grit_utils::convert_string_list_to_vec: split a
comma-separated option into a list of strings. -/
def convert_string_list_to_vec (input : Option String) :
    Option (List String) :=
  input.map (fun s => s.splitOn ",")

/-- Proleptic-Gregorian day number of a civil date (days since 1970-01-01,
Howard Hinnant's civil algorithm), matching the day arithmetic underlying
chrono timestamps. -/
def daysFromCivil (y m d : Int) : Int :=
  let y2 := if m ≤ 2 then y - 1 else y
  let era := Int.fdiv y2 400
  let yoe := y2 - era * 400
  let mAdj := if 2 < m then m - 3 else m + 9
  let doy := Int.fdiv (153 * mAdj + 2) 5 + d - 1
  let doe := yoe * 365 + Int.fdiv yoe 4 - Int.fdiv yoe 100 + doy
  era * 146097 + doe - 719468

/-- Timestamp of chrono DateTime MIN_UTC (date -262143-01-01) at
00:00:00, the fixed lower window bound hard-coded by
ByDate::process_date. -/
def minUtcSec : Int := 86400 * daysFromCivil (-262143) 1 1

/-- Timestamp of chrono DateTime MAX_UTC (date 262143-12-31) at 23:59:59,
the fixed upper window bound hard-coded by ByDate::process_date. -/
def maxUtcSec : Int := 86400 * daysFromCivil 262143 12 31 + 86399

/-- by_date.rs ByDateOutput.  The date field is the commit instant (the
full DateTime produced by convert_git_time); DateTime values compare by
instant, so it is modelled as seconds since the epoch. -/
structure ByDateOutput where
  date : Int
  count : Int
deriving DecidableEq

/-- by_date.rs ByDateArgs, with dates as optional timestamps. -/
structure ByDateArgs where
  path : String
  start_date : Option Int
  end_date : Option Int
  file : Option String
  image : Bool
  ignore_weekends : Bool
  ignore_gap_fill : Bool
  html : Bool
  restrict_authors : Option String

/-- One commit as consumed by the by-date revwalk: its timestamp in
seconds and its author name. -/
structure CommitInfo where
  time : Int
  author : String

namespace ByDate

/-- ByDate::is_weekend: the commit instant, converted to the local
calendar date for the fixed offset tz (seconds east of UTC), falls on
Saturday or Sunday.  Day 0 (1970-01-01) is a Thursday, so weekday index
(Monday = 0) is (day + 3) mod 7 and the weekend is index 5 or 6. -/
def is_weekend (tz ts : Int) : Bool :=
  let d := Int.fdiv (ts + tz) 86400
  let w := (d + 3) % 7
  decide (w = 5) || decide (w = 6)

/-- The derived lexicographic Ord of ByDateOutput (date, then count), as
used by output.sort(). -/
def byDateCmp (a b : ByDateOutput) : Ordering :=
  match intCmp a.date b.date with
  | Ordering.eq => intCmp a.count b.count
  | o => o

/-- HashMap entry-or-insert(count 0) followed by count += 1, on an
association list from instants to counts in first-insertion order. -/
def bumpDate (l : List (Int × Int)) (d : Int) : List (Int × Int) :=
  match l with
  | [] => [(d, 1)]
  | (d1, c) :: rest =>
    if d1 = d then (d1, c + 1) :: rest else (d1, c) :: bumpDate rest d

/-- The loop body of ByDate::fill_date_gaps, one iteration per unit of
fuel: at the cursor, insert a zero-count bucket when the bucket date
differs from the expected date, otherwise keep the bucket and advance;
the expected date advances by Duration::days(1) = 86400 seconds each
iteration.  The loop ends when the cursor passes the end of the vector;
exhausted fuel (none) models the non-termination of the Rust loop on
input it cannot align with. -/
def fillFromAux (fuel : Nat) (last_date : Int) :
    List ByDateOutput → Option (List ByDateOutput)
  | [] => some []
  | b :: bs =>
    match fuel with
    | 0 => none
    | Nat.succ f =>
      if b.date = last_date then
        (fillFromAux f (last_date + 86400) bs).map (fun out => b :: out)
      else
        (fillFromAux f (last_date + 86400) (b :: bs)).map
          (fun out => { date := last_date, count := 0 } :: out)

/-- ByDate::fill_date_gaps.  The Rust code reads input[0].date before the
loop, which panics on an empty vector (modelled as none).  The fuel
passed to the loop is sufficient for every sorted day-aligned input. -/
def fill_date_gaps (input : List ByDateOutput) :
    Option (List ByDateOutput) :=
  match input with
  | [] => none
  | b :: rest =>
    let lastB := (b :: rest).getLastD b
    let fuel := ((lastB.date - b.date).toNat / 86400) + (b :: rest).length + 1
    fillFromAux fuel b.date (b :: rest)

/-- ByDate::process_date, as a function of the commits delivered by the
revwalk (newest-first) and the local offset tz.  The window bounds are
the hard-coded MIN_UTC/MAX_UTC timestamps; args.start_date and
args.end_date are never consulted.  Commits are filtered (weekends when
requested, the fixed window, restricted authors), grouped by instant,
sorted ascending, and gap-filled unless ignore_gap_fill is set. -/
def process_date (args : ByDateArgs) (tz : Int)
    (commits : List CommitInfo) : Option (List ByDateOutput) :=
  let restrict_authors := convert_string_list_to_vec args.restrict_authors
  let end_date_sec := maxUtcSec
  let start_date_sec := minUtcSec
  let filtered := commits.filter (fun c =>
    !(args.ignore_weekends && is_weekend tz c.time) &&
    !(decide (c.time < start_date_sec)) &&
    !(decide (c.time > end_date_sec)) &&
    !(match restrict_authors with
      | some v => v.contains c.author
      | none => false))
  let grouped := filtered.foldl (fun m c => bumpDate m c.time) []
  let output := grouped.map (fun p => ByDateOutput.mk p.1 p.2)
  let output := sortByOrd byDateCmp output
  if !args.ignore_gap_fill then fill_date_gaps output else some output

end ByDate

/-- From the spec: the size of the union of all authors' distinct-commit
sets, over an AuthorStats list. -/
def commitsUnionOf (l : List AuthorStats) : Finset String :=
  l.foldr (fun s acc => s.commits ∪ acc) ∅

/-- From the spec: the size of the union of all authors' distinct-file
sets, over an AuthorStats list. -/
def filesUnionOf (l : List AuthorStats) : Finset String :=
  l.foldr (fun s acc => s.filenames ∪ acc) ∅

/-- Union of the per-author commit sets of the accumulation map. -/
def commitsUnionAcc (l : List (String × AuthorAcc)) : Finset String :=
  l.foldr (fun p acc => p.2.commits ∪ acc) ∅

/-- Sum of the per-author line totals of the accumulation map. -/
def sumLinesAcc (l : List (String × AuthorAcc)) : Int :=
  (l.map (fun p => p.2.lines)).sum

-- sanity examples (evaluation checks of the embedding)
example : daysFromCivil 1970 1 1 = 0 := by decide
example : daysFromCivil 2020 3 13 = 18334 := by decide
example : daysFromCivil 2020 3 16 = 18337 := by decide
example : ByDate.is_weekend 0 (86400 * daysFromCivil 2020 4 19) = true := by decide
example : ByDate.is_weekend 0 (86400 * daysFromCivil 2020 4 20) = false := by decide
example : fdiv 0 0 = FVal.nan := by decide
example :
    ByDate.fill_date_gaps
      [ { date := 86400 * 18334, count := 15 }, { date := 86400 * 18337, count := 45 } ] =
    some
      [ { date := 86400 * 18334, count := 15 }, { date := 86400 * 18335, count := 0 },
        { date := 86400 * 18336, count := 0 }, { date := 86400 * 18337, count := 45 } ] := by
  decide

theorem progressTotal_shift {α : Type} (l : List (Except Unit α)) :
    ∀ n : Nat, l.foldl (fun n r => n + taskIncrement r) n =
      n + l.foldl (fun n r => n + taskIncrement r) 0 := by
  induction l with
  | nil => intro n; simp
  | cons r rest ih =>
    intro n
    simp only [List.foldl_cons]
    rw [ih (n + taskIncrement r), ih (0 + taskIncrement r)]
    omega

theorem progressTotal_cons {α : Type} (r : Except Unit α)
    (l : List (Except Unit α)) :
    progressTotal (r :: l) = taskIncrement r + progressTotal l := by
  unfold progressTotal
  simp only [List.foldl_cons]
  rw [progressTotal_shift]
  omega

/-- Claim C10 (confirmed): ByDate::process_date computes its buckets from
the hard-coded MIN_UTC/MAX_UTC window and never reads the start_date and
end_date arguments, so any two choices of those arguments over the same
commits produce identical output. -/
theorem by_date_ignores_date_args (a : ByDateArgs) (s1 e1 s2 e2 : Option Int)
    (tz : Int) (commits : List CommitInfo) :
    ByDate.process_date { a with start_date := s1, end_date := e1 } tz commits =
    ByDate.process_date { a with start_date := s2, end_date := e2 } tz commits := rfl

/-- Claim C8 (code_bug): on an empty commit list, ByDate::process_date
returns the empty bucket list only when gap filling is disabled; with gap
filling enabled (ignore_gap_fill = false, the default) fill_date_gaps
reads input[0] of the empty vector and panics (modelled as none), for
either value of ignore_weekends. -/
theorem by_date_empty_input_panics :
    ByDate.process_date
      { path := "r", start_date := none, end_date := none, file := none,
        image := false, ignore_weekends := false, ignore_gap_fill := false,
        html := false, restrict_authors := none } 0 [] = none ∧
    ByDate.process_date
      { path := "r", start_date := none, end_date := none, file := none,
        image := false, ignore_weekends := true, ignore_gap_fill := false,
        html := false, restrict_authors := none } 0 [] = none ∧
    ByDate.process_date
      { path := "r", start_date := none, end_date := none, file := none,
        image := false, ignore_weekends := false, ignore_gap_fill := true,
        html := false, restrict_authors := none } 0 [] = some [] ∧
    ByDate.process_date
      { path := "r", start_date := none, end_date := none, file := none,
        image := false, ignore_weekends := true, ignore_gap_fill := true,
        html := false, restrict_authors := none } 0 [] = some [] := by
  refine ⟨rfl, rfl, rfl, rfl⟩

/-- Claim C2 (corrected), counterexample: git_utils::find_commit_range
with both bounds absent does not return (None, None); on a repository
whose newest-first walk is b (time 2), a (time 1) it returns the actual
oldest and newest commit ids (Some a, Some b). -/
theorem resolver_unbounded_sentinel_counterexample :
    git_utils.find_commit_range [( "b", 2), ( "a", 1)] none none =
      (some "a", some "b") ∧
    git_utils.find_commit_range [( "b", 2), ( "a", 1)] none none ≠
      ((none : Option String), (none : Option String)) := by
  refine ⟨rfl, by decide⟩

/-- Claim C2 (amended): with both date bounds absent, the resolver used
by the analyses (grit_utils::find_commit_range) returns the unbounded
sentinel (None, None) for every repository, while the unused
git_utils::find_commit_range variant instead returns the repository's
actual oldest and newest commit ids (the heads of the oldest-first and
newest-first walks). -/
theorem resolver_unbounded_sentinel_amended (walk : List (String × Int)) :
    grit_utils.find_commit_range walk none none =
      ((none : Option String), (none : Option String)) ∧
    git_utils.find_commit_range walk none none =
      ((walk.reverse.head?).map Prod.fst, (walk.head?).map Prod.fst) := by
  refine ⟨rfl, rfl⟩

/-- Claim C3 (code_bug): a per-file blame failure is recoverable in
Fame::process_files (the failed file is dropped, the rest of the records
survive), but Effort::process unwraps each task result and panics on the
first failed file (modelled as none), aborting the whole run. -/
theorem effort_per_file_failure_aborts_run :
    Effort.process_results
      [ Except.error (),
        Except.ok { file := "f2", commits := 1, active_days := 1 } ] = none ∧
    Fame.process_files
      [ Except.error (),
        Except.ok [ { author := "a", commit_id := "c", lines := 3, file_name := "f2" } ] ] =
      [ { author := "a", commit_id := "c", lines := 3, file_name := "f2" } ] := by
  refine ⟨rfl, rfl⟩

/-- Claim C6 (corrected), counterexample: a run over one file whose blame
fails performs zero progress increments, not one, so the counter does not
reach the number of input files. -/
theorem progress_counter_counterexample :
    progressTotal [ (Except.error () : Except Unit (List BlameEntry)) ] = 0 ∧
    [ (Except.error () : Except Unit (List BlameEntry)) ].length = 1 := by
  refine ⟨rfl, rfl⟩

/-- Claim C6 (amended): the shared progress counter is incremented exactly
once per successfully completed file task and never on a failed one, so
after all tasks finish it equals the number of successful files, and it
equals the number of input files exactly when every file succeeded. -/
theorem progress_counts_successes {α : Type} (results : List (Except Unit α)) :
    progressTotal results = (results.filter (fun r => exceptIsOk r)).length ∧
    (progressTotal results = results.length ↔
      ∀ r ∈ results, exceptIsOk r = true) := by
  induction results with
  | nil => exact ⟨rfl, by simp [progressTotal]⟩
  | cons r rest ih =>
    obtain ⟨ih1, ih2⟩ := ih
    have hlen : progressTotal rest ≤ rest.length := by
      rw [ih1]; exact List.length_filter_le _ rest
    constructor
    · rw [progressTotal_cons, ih1]
      cases r with
      | ok v => simp [taskIncrement, exceptIsOk]; omega
      | error v => simp [taskIncrement, exceptIsOk]
    · rw [progressTotal_cons]
      cases r with
      | ok v =>
        simp only [taskIncrement, List.length_cons, List.mem_cons]
        constructor
        · intro h x hx
          rcases hx with h1 | h2
          · subst h1; rfl
          · exact ih2.mp (by omega) x h2
        · intro h
          have := ih2.mpr (fun x hx => h x (Or.inr hx))
          omega
      | error v =>
        simp only [taskIncrement, List.length_cons, List.mem_cons]
        constructor
        · intro h; omega
        · intro h
          have hfalse := h (Except.error v) (Or.inl rfl)
          simp [exceptIsOk] at hfalse

/-- Claim C1 (corrected), counterexample: the blame-record set containing
the single record (author a, commit c, file f, 0 lines) has total-lines
denominator 0, and Fame::calculate_stats computes perc_lines = 0.0 / 0.0 =
NaN for the author, not 0.0 (the code divides with no zero-denominator
guard). -/
theorem fame_zero_denominator_nan_counterexample :
    (Fame.calculate_stats
      [ { author := "a", commit_id := "c", lines := 0, file_name := "f" } ]
      none none).2.1 = 0 ∧
    ((Fame.calculate_stats
      [ { author := "a", commit_id := "c", lines := 0, file_name := "f" } ]
      none none).1.map (fun s => s.perc_lines)) = [ FVal.nan ] := by
  refine ⟨rfl, by decide⟩

/-- Claim C4 (corrected), counterexample: for the record set where authors
a and b both touch the single file f, Fame::calculate_stats returns
total_files = 2 (the sum of the two per-author distinct-file counts) while
the union of all authors' distinct-file sets has size 1. -/
theorem total_files_union_counterexample :
    (Fame.calculate_stats
      [ { author := "a", commit_id := "c1", lines := 1, file_name := "f" },
        { author := "b", commit_id := "c2", lines := 1, file_name := "f" } ]
      none none).2.2.1 = 2 ∧
    (filesUnionOf (Fame.calculate_stats
      [ { author := "a", commit_id := "c1", lines := 1, file_name := "f" },
        { author := "b", commit_id := "c2", lines := 1, file_name := "f" } ]
      none none).1).card = 1 := by
  refine ⟨by decide, by decide⟩

/-- Claim C5 (corrected), counterexample: authors b and a tie on the
default sort key (one distinct commit each), yet the output lists b before
a — the stable sort leaves ties in map-iteration order and applies no
author-name tie-break, so tied authors need not appear in ascending name
order. -/
theorem sort_tie_break_counterexample :
    ((Fame.calculate_stats
      [ { author := "b", commit_id := "c1", lines := 1, file_name := "f1" },
        { author := "a", commit_id := "c2", lines := 1, file_name := "f2" } ]
      none none).1.map (fun s => s.author)) = [ "b", "a" ] ∧
    ((Fame.calculate_stats
      [ { author := "b", commit_id := "c1", lines := 1, file_name := "f1" },
        { author := "a", commit_id := "c2", lines := 1, file_name := "f2" } ]
      none none).1.map (fun s => s.commits_count)) = [ 1, 1 ] := by
  refine ⟨by decide, by decide⟩

theorem scanAssign_sorted (sd : Int) (walk : List (String × Int))
    (hsorted : List.Pairwise (fun x y : String × Int => y.2 ≤ x.2) walk) :
    ∀ acc : Option String,
      grit_utils.scanAssign (fun t => decide (sd ≤ t)) acc walk =
      match walk.reverse.find? (fun x => decide (sd ≤ x.2)) with
      | some x => some x.1
      | none => acc := by
  induction walk with
  | nil => intro acc; simp [grit_utils.scanAssign]
  | cons hd rest ih =>
    intro acc
    obtain ⟨id, t⟩ := hd
    have hall : ∀ y ∈ rest, y.2 ≤ t := by
      intro y hy
      exact (List.pairwise_cons.mp hsorted).1 y hy
    have hrest := ih (List.pairwise_cons.mp hsorted).2
    by_cases hq : sd ≤ t
    · have hstep : grit_utils.scanAssign (fun t => decide (sd ≤ t)) acc ((id, t) :: rest) =
          grit_utils.scanAssign (fun t => decide (sd ≤ t)) (some id) rest := by
        simp [grit_utils.scanAssign, hq]
      rw [hstep, hrest (some id)]
      rw [List.reverse_cons, List.find?_append]
      cases hfind : rest.reverse.find? (fun x => decide (sd ≤ x.2)) with
      | some x => simp [Option.or]
      | none => simp [Option.or, List.find?, hq]
    · have hstep : grit_utils.scanAssign (fun t => decide (sd ≤ t)) acc ((id, t) :: rest) = acc := by
        simp [grit_utils.scanAssign, hq]
      rw [hstep]
      have hnone : rest.reverse.find? (fun x => decide (sd ≤ x.2)) = none := by
        rw [List.find?_eq_none]
        intro x hx
        have := hall x (List.mem_reverse.mp hx)
        simp only [decide_eq_true_eq]
        omega
      rw [List.reverse_cons, List.find?_append, hnone]
      simp [Option.or, List.find?, hq]

/-- Claim C9 (confirmed): with a present start bound, the resolver sets
earliest to the oldest commit whose timestamp is at least start — the
first qualifying commit of the oldest-first (reversed newest-first)
chronological walk — and to None when no commit qualifies, given the git2
guarantee that the TIME walk is sorted by non-increasing commit time. -/
theorem resolver_earliest_oldest_qualifying (walk : List (String × Int))
    (start_sec : Int) (end_date : Option Int)
    (hsorted : List.Pairwise (fun x y : String × Int => y.2 ≤ x.2) walk) :
    (grit_utils.find_commit_range walk (some start_sec) end_date).1 =
      (walk.reverse.find? (fun x => decide (start_sec ≤ x.2))).map Prod.fst := by
  have h := scanAssign_sorted start_sec walk hsorted none
  show grit_utils.scanAssign (fun t => decide (start_sec ≤ t)) none walk = _
  rw [h]
  cases walk.reverse.find? (fun x => decide (start_sec ≤ x.2)) with
  | some x => rfl
  | none => rfl

/-- Witness for C9: on the newest-first walk c3 at 30, c2 at 20, c1 at 10
with start 15, the sortedness hypothesis holds and earliest resolves to
c2, the oldest commit with timestamp at least 15. -/
theorem resolver_earliest_oldest_qualifying_witness :
    List.Pairwise (fun x y : String × Int => y.2 ≤ x.2)
      [( "c3", 30), ( "c2", 20), ( "c1", 10)] ∧
    (grit_utils.find_commit_range [( "c3", 30), ( "c2", 20), ( "c1", 10)]
      (some 15) none).1 = some "c2" := by
  refine ⟨by decide, ?_⟩
  rw [resolver_earliest_oldest_qualifying _ _ _ (by decide)]
  decide

theorem intCmp_gt_iff (a b : Int) : intCmp a b = Ordering.gt ↔ b < a := by
  unfold intCmp
  by_cases h1 : a < b
  · simp [h1]; omega
  · by_cases h2 : a = b
    · simp [h1, h2]
    · simp [h1, h2]; omega

theorem insertOrd_perm {α : Type} (c : α → α → Ordering) (x : α)
    (l : List α) : List.Perm (insertOrd c x l) (x :: l) := by
  induction l with
  | nil => exact List.Perm.refl _
  | cons y ys ih =>
    show List.Perm (insertOrd c x (y :: ys)) _
    unfold insertOrd
    cases hc : c x y with
    | gt =>
      exact List.Perm.trans (List.Perm.cons y ih) (List.Perm.swap x y ys)
    | lt => exact List.Perm.refl _
    | eq => exact List.Perm.refl _

theorem sortByOrd_perm {α : Type} (c : α → α → Ordering) (l : List α) :
    List.Perm (sortByOrd c l) l := by
  induction l with
  | nil => exact List.Perm.refl _
  | cons x xs ih =>
    exact List.Perm.trans (insertOrd_perm c x (sortByOrd c xs))
      (List.Perm.cons x ih)

theorem mem_insertOrd {α : Type} (c : α → α → Ordering) (x z : α)
    (l : List α) : z ∈ insertOrd c x l ↔ z = x ∨ z ∈ l := by
  rw [(insertOrd_perm c x l).mem_iff]
  simp

theorem insertOrd_pairwise {α : Type} (k : α → Int) (x : α) (l : List α)
    (h : List.Pairwise (fun a b => k b ≤ k a) l) :
    List.Pairwise (fun a b => k b ≤ k a)
      (insertOrd (fun a b => intCmp (k b) (k a)) x l) := by
  induction l with
  | nil => simp [insertOrd]
  | cons y ys ih =>
    have hy : ∀ z ∈ ys, k z ≤ k y := (List.pairwise_cons.mp h).1
    have hys := (List.pairwise_cons.mp h).2
    show List.Pairwise _ (insertOrd _ x (y :: ys))
    unfold insertOrd
    cases hc : intCmp (k y) (k x) with
    | gt =>
      have hxy : k x < k y := (intCmp_gt_iff _ _).mp hc
      rw [List.pairwise_cons]
      refine ⟨?_, ih hys⟩
      intro z hz
      rcases (mem_insertOrd _ x z ys).mp hz with h1 | h2
      · subst h1; omega
      · exact hy z h2
    | lt =>
      have hxy : ¬ (k x < k y) := by
        intro hcon
        rw [(intCmp_gt_iff (k y) (k x)).mpr hcon] at hc
        exact Ordering.noConfusion hc
      rw [List.pairwise_cons]
      refine ⟨?_, h⟩
      intro z hz
      rcases List.mem_cons.mp hz with h1 | h2
      · subst h1; omega
      · have := hy z h2; omega
    | eq =>
      have hxy : ¬ (k x < k y) := by
        intro hcon
        rw [(intCmp_gt_iff (k y) (k x)).mpr hcon] at hc
        exact Ordering.noConfusion hc
      rw [List.pairwise_cons]
      refine ⟨?_, h⟩
      intro z hz
      rcases List.mem_cons.mp hz with h1 | h2
      · subst h1; omega
      · have := hy z h2; omega

theorem sortByOrd_pairwise {α : Type} (k : α → Int) (l : List α) :
    List.Pairwise (fun a b => k b ≤ k a)
      (sortByOrd (fun a b => intCmp (k b) (k a)) l) := by
  induction l with
  | nil => exact List.Pairwise.nil
  | cons x xs ih => exact insertOrd_pairwise k x _ ih

/-- Claim C5 (amended): for every record set and sort key the AuthorStats
output of Fame::calculate_stats is sorted in non-increasing order of the
requested key (lines for loc, file count for files, distinct-commit count
otherwise); ties carry no author-name ordering guarantee. -/
theorem sort_descending_by_key (entries : List BlameEntry)
    (restrict : Option (List String)) (sort : Option String) :
    List.Pairwise (fun a b => sortKeyInt sort b ≤ sortKeyInt sort a)
      (Fame.calculate_stats entries restrict sort).1 :=
  sortByOrd_pairwise (sortKeyInt sort) _

theorem foldrUnion_perm {α : Type} (g : α → Finset String) {l1 l2 : List α}
    (h : List.Perm l1 l2) :
    l1.foldr (fun s acc => g s ∪ acc) ∅ = l2.foldr (fun s acc => g s ∪ acc) ∅ := by
  induction h with
  | nil => rfl
  | cons x _ ih => simp only [List.foldr_cons, ih]
  | swap x y l => simp only [List.foldr_cons]; exact Finset.union_left_comm _ _ _
  | trans _ _ ih1 ih2 => rw [ih1, ih2]

theorem commitsUnionAcc_updateAssoc (l : List (String × AuthorAcc))
    (k c : String) (f : AuthorAcc → AuthorAcc)
    (hf : ∀ v, (f v).commits = insert c v.commits) :
    commitsUnionAcc (updateAssoc l k f) = insert c (commitsUnionAcc l) := by
  induction l with
  | nil =>
    show commitsUnionAcc [(k, f AuthorAcc.new)] = _
    simp [commitsUnionAcc, hf, AuthorAcc.new]
  | cons p rest ih =>
    obtain ⟨k1, v⟩ := p
    show commitsUnionAcc
      (if k1 = k then (k1, f v) :: rest else (k1, v) :: updateAssoc rest k f) = _
    by_cases hk : k1 = k
    · simp only [if_pos hk, commitsUnionAcc, List.foldr_cons, hf]
      exact Finset.insert_union c v.commits _
    · simp only [if_neg hk, commitsUnionAcc, List.foldr_cons]
      rw [show (updateAssoc rest k f).foldr (fun p acc => p.2.commits ∪ acc) ∅ =
            commitsUnionAcc (updateAssoc rest k f) from rfl, ih]
      exact Finset.union_insert _ _ _

theorem sumLinesAcc_updateAssoc (l : List (String × AuthorAcc)) (k : String)
    (n : Int) (f : AuthorAcc → AuthorAcc)
    (hf : ∀ v, (f v).lines = v.lines + n) :
    sumLinesAcc (updateAssoc l k f) = sumLinesAcc l + n := by
  induction l with
  | nil =>
    show sumLinesAcc [(k, f AuthorAcc.new)] = _
    simp [sumLinesAcc, hf, AuthorAcc.new]
  | cons p rest ih =>
    obtain ⟨k1, v⟩ := p
    show sumLinesAcc
      (if k1 = k then (k1, f v) :: rest else (k1, v) :: updateAssoc rest k f) = _
    by_cases hk : k1 = k
    · simp only [if_pos hk, sumLinesAcc, List.map_cons, List.sum_cons, hf]
      omega
    · simp only [if_neg hk, sumLinesAcc, List.map_cons, List.sum_cons]
      have ih2 : ((updateAssoc rest k f).map (fun p => p.2.lines)).sum =
          (rest.map (fun p => p.2.lines)).sum + n := ih
      omega

theorem updateAssoc_forall (l : List (String × AuthorAcc)) (k : String)
    (f : AuthorAcc → AuthorAcc) (P : AuthorAcc → Prop)
    (hl : ∀ p ∈ l, P p.2) (hnew : P (f AuthorAcc.new))
    (hstep : ∀ v, P v → P (f v)) :
    ∀ p ∈ updateAssoc l k f, P p.2 := by
  induction l with
  | nil =>
    intro p hp
    rw [show updateAssoc [] k f = [(k, f AuthorAcc.new)] from rfl] at hp
    have hp2 := List.mem_singleton.mp hp
    subst hp2
    exact hnew
  | cons q rest ih =>
    obtain ⟨k1, v⟩ := q
    intro p hp
    rw [show updateAssoc ((k1, v) :: rest) k f =
        (if k1 = k then (k1, f v) :: rest
         else (k1, v) :: updateAssoc rest k f) from rfl] at hp
    by_cases hk : k1 = k
    · rw [if_pos hk] at hp
      rcases List.mem_cons.mp hp with h1 | h2
      · subst h1
        exact hstep v (hl (k1, v) (List.mem_cons_self _ _))
      · exact hl p (List.mem_cons_of_mem _ h2)
    · rw [if_neg hk] at hp
      rcases List.mem_cons.mp hp with h1 | h2
      · subst h1
        exact hl (k1, v) (List.mem_cons_self _ _)
      · exact ih (fun q hq => hl q (List.mem_cons_of_mem _ hq)) p h2

theorem calcStep_inv (restrict : Option (List String)) (st : CalcState)
    (e : BlameEntry)
    (h1 : st.total_commits = commitsUnionAcc st.assoc)
    (h2 : st.total_lines = sumLinesAcc st.assoc)
    (h3 : ∀ p ∈ st.assoc, p.2.commits.Nonempty ∧ p.2.filenames.Nonempty) :
    (calcStep restrict st e).total_commits =
      commitsUnionAcc (calcStep restrict st e).assoc ∧
    (calcStep restrict st e).total_lines =
      sumLinesAcc (calcStep restrict st e).assoc ∧
    ∀ p ∈ (calcStep restrict st e).assoc,
      p.2.commits.Nonempty ∧ p.2.filenames.Nonempty := by
  cases hskip : (match restrict with
    | some ra => ra.contains e.author
    | none => false) with
  | true =>
    simp only [calcStep, hskip, if_pos]
    exact ⟨h1, h2, h3⟩
  | false =>
    simp only [calcStep, hskip, Bool.false_eq_true, if_neg, not_false_iff]
    refine ⟨?_, ?_, ?_⟩
    · rw [commitsUnionAcc_updateAssoc _ _ e.commit_id _ (fun v => rfl), h1]
    · rw [sumLinesAcc_updateAssoc _ _ e.lines _ (fun v => rfl), h2]
    · exact updateAssoc_forall _ _ _
        (fun v => v.commits.Nonempty ∧ v.filenames.Nonempty) h3
        ⟨Finset.insert_nonempty _ _, Finset.insert_nonempty _ _⟩
        (fun v _ => ⟨Finset.insert_nonempty _ _, Finset.insert_nonempty _ _⟩)

theorem calcAcc_inv (restrict : Option (List String))
    (entries : List BlameEntry) :
    (calcAcc restrict entries).total_commits =
      commitsUnionAcc (calcAcc restrict entries).assoc ∧
    (calcAcc restrict entries).total_lines =
      sumLinesAcc (calcAcc restrict entries).assoc ∧
    ∀ p ∈ (calcAcc restrict entries).assoc,
      p.2.commits.Nonempty ∧ p.2.filenames.Nonempty := by
  suffices h : ∀ st : CalcState,
      st.total_commits = commitsUnionAcc st.assoc →
      st.total_lines = sumLinesAcc st.assoc →
      (∀ p ∈ st.assoc, p.2.commits.Nonempty ∧ p.2.filenames.Nonempty) →
      (entries.foldl (calcStep restrict) st).total_commits =
        commitsUnionAcc (entries.foldl (calcStep restrict) st).assoc ∧
      (entries.foldl (calcStep restrict) st).total_lines =
        sumLinesAcc (entries.foldl (calcStep restrict) st).assoc ∧
      ∀ p ∈ (entries.foldl (calcStep restrict) st).assoc,
        p.2.commits.Nonempty ∧ p.2.filenames.Nonempty by
    exact h _ rfl rfl (by intro p hp; cases hp)
  induction entries with
  | nil => intro st a b c; exact ⟨a, b, c⟩
  | cons e rest ih =>
    intro st a b c
    simp only [List.foldl_cons]
    obtain ⟨a1, b1, c1⟩ := calcStep_inv restrict st e a b c
    exact ih _ a1 b1 c1

theorem calcFold_lines_nonneg (restrict : Option (List String)) :
    ∀ (l : List BlameEntry) (st : CalcState),
      (∀ e ∈ l, 0 ≤ e.lines) → (∀ p ∈ st.assoc, 0 ≤ p.2.lines) →
      ∀ p ∈ (l.foldl (calcStep restrict) st).assoc, 0 ≤ p.2.lines := by
  intro l
  induction l with
  | nil => intro st _ hst; exact hst
  | cons e rest ih =>
    intro st he hst
    simp only [List.foldl_cons]
    refine ih _ (fun x hx => he x (List.mem_cons_of_mem _ hx)) ?_
    have he0 : 0 ≤ e.lines := he e (List.mem_cons_self _ _)
    cases hskip : (match restrict with
      | some ra => ra.contains e.author
      | none => false) with
    | true =>
      simp only [calcStep, hskip, if_pos]
      exact hst
    | false =>
      simp only [calcStep, hskip, Bool.false_eq_true, if_neg, not_false_iff]
      exact updateAssoc_forall _ _ _ (fun v => 0 ≤ v.lines) hst
        (by simpa [AuthorAcc.new] using he0)
        (fun v hv => by simp only []; omega)

theorem list_sum_int_zero (l : List Int) (h : ∀ x ∈ l, 0 ≤ x)
    (hz : l.sum = 0) : ∀ x ∈ l, x = 0 := by
  induction l with
  | nil => intro x hx; cases hx
  | cons a rest ih =>
    have ha : 0 ≤ a := h a (List.mem_cons_self _ _)
    have hrest : ∀ x ∈ rest, 0 ≤ x := fun x hx => h x (List.mem_cons_of_mem _ hx)
    have hsum : 0 ≤ rest.sum := by
      clear hz ih ha h
      induction rest with
      | nil => simp
      | cons b tail ihb =>
        have := hrest b (List.mem_cons_self _ _)
        have h2 := ihb (fun x hx => hrest x (List.mem_cons_of_mem _ hx))
        simp only [List.sum_cons]
        omega
    rw [List.sum_cons] at hz
    intro x hx
    rcases List.mem_cons.mp hx with h1 | h2
    · subst h1; omega
    · exact ih hrest (by omega) x h2

theorem commitsUnionOf_map (tf tc : Nat) (tl : Int)
    (assoc : List (String × AuthorAcc)) :
    commitsUnionOf (assoc.map (finalizeStats tf tc tl)) = commitsUnionAcc assoc := by
  unfold commitsUnionOf commitsUnionAcc
  rw [List.foldr_map]
  rfl

theorem commitsUnionOf_sortByOrd (c : AuthorStats → AuthorStats → Ordering)
    (l : List AuthorStats) :
    commitsUnionOf (sortByOrd c l) = commitsUnionOf l := by
  unfold commitsUnionOf
  exact foldrUnion_perm (fun s => s.commits) (sortByOrd_perm c l)

theorem fileCountSum_sortByOrd (c : AuthorStats → AuthorStats → Ordering)
    (l : List AuthorStats) :
    ((sortByOrd c l).map (fun s => s.file_count)).sum =
      (l.map (fun s => s.file_count)).sum :=
  (List.Perm.map (fun s => s.file_count) (sortByOrd_perm c l)).sum_eq

theorem fileCountMap_finalize (tf tc : Nat) (tl : Int)
    (assoc : List (String × AuthorAcc)) :
    (assoc.map (finalizeStats tf tc tl)).map (fun s => s.file_count) =
      assoc.map (fun p => p.2.filenames.card) := by
  rw [List.map_map]
  rfl

/-- Claim C4 (amended): in Fame::calculate_stats, total_commits equals the
size of the union of all authors' distinct-commit sets, but total_files is
the sum over authors of their distinct-file counts (a file touched by
several authors is counted once per author), not the size of the union of
the distinct-file sets. -/
theorem totals_commits_union_files_sum (entries : List BlameEntry)
    (restrict : Option (List String)) (sort : Option String) :
    (Fame.calculate_stats entries restrict sort).2.2.2 =
      (commitsUnionOf (Fame.calculate_stats entries restrict sort).1).card ∧
    (Fame.calculate_stats entries restrict sort).2.2.1 =
      ((Fame.calculate_stats entries restrict sort).1.map
        (fun s => s.file_count)).sum := by
  obtain ⟨h1, _, _⟩ := calcAcc_inv restrict entries
  simp only [Fame.calculate_stats]
  constructor
  · rw [commitsUnionOf_sortByOrd, commitsUnionOf_map, h1]
  · rw [fileCountSum_sortByOrd, fileCountMap_finalize]

/-- Claim C1 (amended): every percentage field of Fame::calculate_stats is
the IEEE division of the author's count by its global denominator; the
file and commit denominators are positive whenever any author is present,
but the code has no zero-denominator guard, so when every included record
carries a non-negative line count and the total-lines denominator is 0
each perc_lines is NaN, not 0.0. -/
theorem fame_percentages_are_ieee_divisions (entries : List BlameEntry)
    (restrict : Option (List String)) (sort : Option String) :
    (∀ s ∈ (Fame.calculate_stats entries restrict sort).1,
        s.perc_lines = fdiv (s.lines : ℚ)
          ((Fame.calculate_stats entries restrict sort).2.1 : ℚ) ∧
        s.perc_commits = fdiv (s.commits_count : ℚ)
          ((Fame.calculate_stats entries restrict sort).2.2.2 : ℚ) ∧
        s.perc_files = fdiv (s.file_count : ℚ)
          ((Fame.calculate_stats entries restrict sort).2.2.1 : ℚ)) ∧
    ((Fame.calculate_stats entries restrict sort).1 ≠ [] →
        0 < (Fame.calculate_stats entries restrict sort).2.2.1 ∧
        0 < (Fame.calculate_stats entries restrict sort).2.2.2) ∧
    ((∀ e ∈ entries, 0 ≤ e.lines) →
      (Fame.calculate_stats entries restrict sort).2.1 = 0 →
        ∀ s ∈ (Fame.calculate_stats entries restrict sort).1,
          s.perc_lines = FVal.nan) := by
  obtain ⟨hcu, hls, hnem⟩ := calcAcc_inv restrict entries
  simp only [Fame.calculate_stats]
  refine ⟨?_, ?_, ?_⟩
  · intro s hs
    have hmem : s ∈ (calcAcc restrict entries).assoc.map
        (finalizeStats
          (((calcAcc restrict entries).assoc.map (fun p => p.2.filenames.card)).sum)
          (calcAcc restrict entries).total_commits.card
          (calcAcc restrict entries).total_lines) :=
      (sortByOrd_perm _ _).mem_iff.mp hs
    obtain ⟨p, hp, hfin⟩ := List.mem_map.mp hmem
    subst hfin
    refine ⟨rfl, ?_, rfl⟩
    show fdiv ((p.2.commits.card : Nat) : ℚ) _ =
      fdiv (((p.2.commits.card : Nat) : Int) : ℚ) _
    norm_cast
  · intro hne
    cases hassoc : (calcAcc restrict entries).assoc with
    | nil =>
      exfalso
      apply hne
      rw [hassoc]
      rfl
    | cons q qs =>
      constructor
      · have hq := hnem q (by rw [hassoc]; exact List.mem_cons_self _ _)
        have hcard : 0 < q.2.filenames.card := Finset.card_pos.mpr hq.2
        simp only [List.map_cons, List.sum_cons]
        omega
      · have hq := hnem q (by rw [hassoc]; exact List.mem_cons_self _ _)
        obtain ⟨x, hx⟩ := hq.1
        rw [hcu, hassoc]
        apply Finset.card_pos.mpr
        refine ⟨x, ?_⟩
        show x ∈ q.2.commits ∪ _
        exact Finset.mem_union_left _ hx
  · intro hnn hz s hs
    have hmem : s ∈ (calcAcc restrict entries).assoc.map
        (finalizeStats
          (((calcAcc restrict entries).assoc.map (fun p => p.2.filenames.card)).sum)
          (calcAcc restrict entries).total_commits.card
          (calcAcc restrict entries).total_lines) :=
      (sortByOrd_perm _ _).mem_iff.mp hs
    obtain ⟨p, hp, hfin⟩ := List.mem_map.mp hmem
    have hall : ∀ x ∈ (calcAcc restrict entries).assoc.map (fun p => p.2.lines), 0 ≤ x := by
      intro x hx
      obtain ⟨r, hr, hrx⟩ := List.mem_map.mp hx
      have := calcFold_lines_nonneg restrict entries
        { assoc := [], total_commits := ∅, total_lines := 0 }
        hnn (by intro r2 hr2; cases hr2) r hr
      omega
    have hzero : ∀ x ∈ (calcAcc restrict entries).assoc.map (fun p => p.2.lines), x = 0 := by
      apply list_sum_int_zero _ hall
      rw [show ((calcAcc restrict entries).assoc.map (fun p => p.2.lines)).sum =
        sumLinesAcc (calcAcc restrict entries).assoc from rfl, ← hls, hz]
    have hp0 : p.2.lines = 0 :=
      hzero p.2.lines (List.mem_map_of_mem _ hp)
    subst hfin
    show fdiv (p.2.lines : ℚ) ((calcAcc restrict entries).total_lines : ℚ) = FVal.nan
    rw [hp0, hz]
    unfold fdiv
    norm_num

/-- Witness for the amended C1: the single zero-line record of author a
satisfies the non-negativity hypothesis, yields total_lines = 0, and every
output row's perc_lines is NaN. -/
theorem fame_percentages_are_ieee_divisions_witness :
    (∀ e ∈ [ BlameEntry.mk "a" "c" 0 "f" ], 0 ≤ e.lines) ∧
    (Fame.calculate_stats [ BlameEntry.mk "a" "c" 0 "f" ] none none).2.1 = 0 ∧
    (∀ s ∈ (Fame.calculate_stats [ BlameEntry.mk "a" "c" 0 "f" ] none none).1,
      s.perc_lines = FVal.nan) :=
  ⟨by decide, by decide,
    (fame_percentages_are_ieee_divisions
      [ BlameEntry.mk "a" "c" 0 "f" ] none none).2.2 (by decide) (by decide)⟩

theorem getLastD_mem : ∀ (l : List ByDateOutput) (d : ByDateOutput),
    l ≠ [] → l.getLastD d ∈ l := by
  intro l
  induction l with
  | nil => intro d h; exact absurd rfl h
  | cons a t ih =>
    intro d _
    cases t with
    | nil => simp [List.getLastD_cons]
    | cons b t2 =>
      rw [List.getLastD_cons]
      exact List.mem_cons_of_mem _ (ih a (List.cons_ne_nil _ _))

theorem getLastD_indep : ∀ (l : List ByDateOutput) (d1 d2 : ByDateOutput),
    l ≠ [] → l.getLastD d1 = l.getLastD d2 := by
  intro l
  induction l with
  | nil => intro d1 d2 h; exact absurd rfl h
  | cons a t _ =>
    intro d1 d2 _
    rw [List.getLastD_cons, List.getLastD_cons]

theorem sorted_le_getLastD : ∀ (l : List ByDateOutput) (d : ByDateOutput),
    List.Pairwise (fun x y : ByDateOutput => x.date < y.date) l →
    ∀ x ∈ l, x.date ≤ (l.getLastD d).date := by
  intro l
  induction l with
  | nil => intro d _ x hx; cases hx
  | cons a t ih =>
    intro d hp x hx
    rw [List.getLastD_cons]
    cases t with
    | nil =>
      rcases List.mem_cons.mp hx with h1 | h2
      · subst h1; exact le_refl _
      · cases h2
    | cons b t2 =>
      have htail := (List.pairwise_cons.mp hp).2
      have hhead := (List.pairwise_cons.mp hp).1
      rcases List.mem_cons.mp hx with h1 | h2
      · subst h1
        exact le_of_lt (hhead _ (getLastD_mem (b :: t2) _ (List.cons_ne_nil _ _)))
      · exact ih _ htail x h2

theorem fillFromAux_spec :
    ∀ (fuel : Nat) (last : Int) (l : List ByDateOutput) (kL : Nat),
      (∀ x ∈ l, ∃ k : Nat, k ≤ kL ∧ x.date = last + 86400 * k) →
      List.Pairwise (fun x y : ByDateOutput => x.date < y.date) l →
      (l ≠ [] → (l.getLastD (ByDateOutput.mk 0 0)).date = last + 86400 * kL) →
      kL + l.length < fuel →
      ∃ out, ByDate.fillFromAux fuel last l = some out ∧
        (l = [] → out = []) ∧
        (∀ x, out.head? = some x → x.date = last) ∧
        (∀ x, l.head? = some x → x.date = last → out.head? = some x) ∧
        List.Chain' (fun x y : ByDateOutput => y.date = x.date + 86400) out ∧
        (∀ x ∈ out, last ≤ x.date ∧ x.date ≤ last + 86400 * kL) ∧
        (∀ x ∈ out, x ∈ l ∨
          (x.count = 0 ∧ x.date ∉ l.map (fun y => y.date))) ∧
        (∀ x ∈ l, x ∈ out) ∧
        (l ≠ [] → (out.map (fun x => x.date)).getLast? =
          some (last + 86400 * kL)) := by
  intro fuel
  induction fuel with
  | zero =>
    intro last l kL _ _ _ hfuel
    exact absurd hfuel (Nat.not_lt_zero _)
  | succ f ih =>
    intro last l kL hal hsort hlast hfuel
    cases l with
    | nil =>
      refine ⟨[], rfl, fun _ => rfl, ?_, ?_, ?_, ?_, ?_, ?_, ?_⟩
      · intro z hz; simp at hz
      · intro z hz _; simp at hz
      · exact List.chain'_nil
      · intro z hz; cases hz
      · intro z hz; cases hz
      · intro z hz; cases hz
      · intro h; exact absurd rfl h
    | cons x xs =>
      obtain ⟨k0, hk0le, hk0⟩ := hal x (List.mem_cons_self _ _)
      by_cases hx : x.date = last
      · cases xs with
        | nil =>
          have hkLz : kL = 0 := by
            have hL := hlast (List.cons_ne_nil _ _)
            rw [List.getLastD_cons] at hL
            simp only [List.getLastD] at hL
            omega
          subst hkLz
          have hstep : ByDate.fillFromAux (f + 1) last [x] =
              (if x.date = last then
                (ByDate.fillFromAux f (last + 86400) []).map (fun out => x :: out)
              else
                (ByDate.fillFromAux f (last + 86400) [x]).map
                  (fun out => ByDateOutput.mk last 0 :: out)) := rfl
          refine ⟨[x], ?_, ?_, ?_, ?_, ?_, ?_, ?_, ?_, ?_⟩
          · rw [hstep, if_pos hx]
            have hn : ByDate.fillFromAux f (last + 86400) [] = some [] := by
              cases f <;> rfl
            rw [hn]
            rfl
          · intro h; exact absurd h (List.cons_ne_nil _ _)
          · intro z hz
            have hzx : x = z := by simpa using hz
            subst hzx; exact hx
          · intro z hz _; exact hz
          · simp
          · intro z hz
            have hzx : z = x := by simpa using hz
            subst hzx
            constructor
            · omega
            · simp only [Nat.cast_zero]; omega
          · intro z hz
            exact Or.inl hz
          · intro z hz; exact hz
          · intro _
            simp only [List.map_cons, List.map_nil, List.getLast?_singleton,
              Option.some.injEq, Nat.cast_zero]
            omega
        | cons y ys =>
          have hLmem : (y :: ys).getLastD (ByDateOutput.mk 0 0) ∈ y :: ys :=
            getLastD_mem _ _ (List.cons_ne_nil _ _)
          have hLeq : (x :: y :: ys).getLastD (ByDateOutput.mk 0 0) =
              (y :: ys).getLastD (ByDateOutput.mk 0 0) := by
            rw [List.getLastD_cons]
            exact getLastD_indep _ _ _ (List.cons_ne_nil _ _)
          have hLdate := hlast (List.cons_ne_nil _ _)
          rw [hLeq] at hLdate
          have hxlt : x.date < ((y :: ys).getLastD (ByDateOutput.mk 0 0)).date :=
            (List.pairwise_cons.mp hsort).1 _ hLmem
          have hkL1 : 1 ≤ kL := by omega
          have hal2 : ∀ z ∈ y :: ys, ∃ k : Nat, k ≤ kL - 1 ∧
              z.date = (last + 86400) + 86400 * k := by
            intro z hz
            obtain ⟨k, hkle, hk⟩ := hal z (List.mem_cons_of_mem _ hz)
            have hzgt : x.date < z.date := (List.pairwise_cons.mp hsort).1 z hz
            have hk1 : 1 ≤ k := by omega
            exact ⟨k - 1, by omega, by omega⟩
          have hsort2 := (List.pairwise_cons.mp hsort).2
          have hlast2 : (y :: ys) ≠ [] →
              ((y :: ys).getLastD (ByDateOutput.mk 0 0)).date =
                (last + 86400) + 86400 * ((kL - 1 : Nat) : Int) := by
            intro _; omega
          have hfuel2 : (kL - 1) + (y :: ys).length < f := by
            simp only [List.length_cons] at hfuel ⊢
            omega
          obtain ⟨out2, hA, hB, hC, hD, hE, hF, hG, hH, hI⟩ :=
            ih (last + 86400) (y :: ys) (kL - 1) hal2 hsort2 hlast2 hfuel2
          have hstep : ByDate.fillFromAux (f + 1) last (x :: y :: ys) =
              (if x.date = last then
                (ByDate.fillFromAux f (last + 86400) (y :: ys)).map
                  (fun out => x :: out)
              else
                (ByDate.fillFromAux f (last + 86400) (x :: y :: ys)).map
                  (fun out => ByDateOutput.mk last 0 :: out)) := rfl
          refine ⟨x :: out2, ?_, ?_, ?_, ?_, ?_, ?_, ?_, ?_, ?_⟩
          · rw [hstep, if_pos hx, hA]; rfl
          · intro h; exact absurd h (List.cons_ne_nil _ _)
          · intro z hz
            have hzx : x = z := by simpa using hz
            subst hzx; exact hx
          · intro z hz _
            have hzx : x = z := by simpa using hz
            subst hzx; rfl
          · rw [List.chain'_cons']
            refine ⟨?_, hE⟩
            intro z hz
            have hzd := hC z hz
            omega
          · intro z hz
            rcases List.mem_cons.mp hz with h1 | h2
            · subst h1
              exact ⟨by omega, by omega⟩
            · obtain ⟨hf1, hf2⟩ := hF z h2
              exact ⟨by omega, by omega⟩
          · intro z hz
            rcases List.mem_cons.mp hz with h1 | h2
            · subst h1; exact Or.inl (List.mem_cons_self _ _)
            · rcases hG z h2 with hg | hg2
              · exact Or.inl (List.mem_cons_of_mem _ hg)
              · refine Or.inr ⟨hg2.1, ?_⟩
                intro hmem
                rw [List.map_cons] at hmem
                rcases List.mem_cons.mp hmem with h1 | h2b
                · have hge := (hF z h2).1
                  omega
                · exact hg2.2 h2b
          · intro z hz
            rcases List.mem_cons.mp hz with h1 | h2
            · subst h1; exact List.mem_cons_self _ _
            · exact List.mem_cons_of_mem _ (hH z h2)
          · intro _
            have hyne : out2 ≠ [] := by
              intro hcon
              have hm := hH y (List.mem_cons_self _ _)
              rw [hcon] at hm; cases hm
            cases out2 with
            | nil => exact absurd rfl hyne
            | cons o os =>
              simp only [List.map_cons]
              rw [List.getLast?_cons_cons]
              have hI2 := hI (List.cons_ne_nil _ _)
              simp only [List.map_cons] at hI2
              rw [hI2]
              simp only [Option.some.injEq]
              omega
      · have hk01 : 1 ≤ k0 := by omega
        have hLmem2 : (x :: xs).getLastD (ByDateOutput.mk 0 0) ∈ x :: xs :=
          getLastD_mem _ _ (List.cons_ne_nil _ _)
        have hLdate := hlast (List.cons_ne_nil _ _)
        have hxleL : x.date ≤ ((x :: xs).getLastD (ByDateOutput.mk 0 0)).date :=
          sorted_le_getLastD _ _ hsort _ (List.mem_cons_self _ _)
        have hkL1 : 1 ≤ kL := by omega
        have hal2 : ∀ z ∈ x :: xs, ∃ k : Nat, k ≤ kL - 1 ∧
            z.date = (last + 86400) + 86400 * k := by
          intro z hz
          obtain ⟨k, hkle, hk⟩ := hal z hz
          have hk1 : 1 ≤ k := by
            rcases List.mem_cons.mp hz with h1 | h2
            · subst h1; omega
            · have hzgt : x.date < z.date := (List.pairwise_cons.mp hsort).1 z h2
              omega
          exact ⟨k - 1, by omega, by omega⟩
        have hlast2 : (x :: xs) ≠ [] →
            ((x :: xs).getLastD (ByDateOutput.mk 0 0)).date =
              (last + 86400) + 86400 * ((kL - 1 : Nat) : Int) := by
          intro _; omega
        have hfuel2 : (kL - 1) + (x :: xs).length < f := by omega
        obtain ⟨out2, hA, hB, hC, hD, hE, hF, hG, hH, hI⟩ :=
          ih (last + 86400) (x :: xs) (kL - 1) hal2 hsort hlast2 hfuel2
        have hstep : ByDate.fillFromAux (f + 1) last (x :: xs) =
            (if x.date = last then
              (ByDate.fillFromAux f (last + 86400) xs).map (fun out => x :: out)
            else
              (ByDate.fillFromAux f (last + 86400) (x :: xs)).map
                (fun out => ByDateOutput.mk last 0 :: out)) := rfl
        refine ⟨ByDateOutput.mk last 0 :: out2, ?_, ?_, ?_, ?_, ?_, ?_, ?_, ?_, ?_⟩
        · rw [hstep, if_neg hx, hA]; rfl
        · intro h; exact absurd h (List.cons_ne_nil _ _)
        · intro z hz
          have hzx : ByDateOutput.mk last 0 = z := by simpa using hz
          subst hzx; rfl
        · intro z hz hzd
          have hzx : x = z := by simpa using hz
          subst hzx
          exact absurd hzd hx
        · rw [List.chain'_cons']
          refine ⟨?_, hE⟩
          intro z hz
          have hzd := hC z hz
          show z.date = last + 86400
          exact hzd
        · intro z hz
          rcases List.mem_cons.mp hz with h1 | h2
          · subst h1
            refine ⟨le_refl _, ?_⟩
            show (last : Int) ≤ last + 86400 * (kL : Int)
            omega
          · obtain ⟨hf1, hf2⟩ := hF z h2
            exact ⟨by omega, by omega⟩
        · intro z hz
          rcases List.mem_cons.mp hz with h1 | h2
          · subst h1
            refine Or.inr ⟨rfl, ?_⟩
            intro hmem
            obtain ⟨z2, hz2, hz2d⟩ := List.mem_map.mp hmem
            obtain ⟨k, _, hk⟩ := hal2 z2 hz2
            have hzd : (ByDateOutput.mk last 0).date = last := rfl
            omega
          · exact hG z h2
        · intro z hz
          exact List.mem_cons_of_mem _ (hH z hz)
        · intro _
          have hyne : out2 ≠ [] := by
            intro hcon
            have hm := hH x (List.mem_cons_self _ _)
            rw [hcon] at hm; cases hm
          cases out2 with
          | nil => exact absurd rfl hyne
          | cons o os =>
            simp only [List.map_cons]
            rw [List.getLast?_cons_cons]
            have hI2 := hI (List.cons_ne_nil _ _)
            simp only [List.map_cons] at hI2
            rw [hI2]
            simp only [Option.some.injEq]
            omega

/-- Claim C7 (confirmed): on a non-empty, strictly date-sorted,
day-aligned bucket list, ByDate::fill_date_gaps succeeds and returns the
consecutive-day sequence from the first bucket's date to the last
bucket's date: it starts at the first input bucket, steps by exactly one
day, ends at the last input date, keeps every input bucket, and every
other bucket it contains is a zero-count bucket at a date absent from the
input — so it inserts zero-count buckets for exactly the missing dates
strictly inside the observed range and never adds a date outside it. -/
theorem fill_date_gaps_fills_exactly (b : ByDateOutput)
    (rest : List ByDateOutput)
    (hsorted : List.Pairwise (fun x y : ByDateOutput => x.date < y.date)
      (b :: rest))
    (halign : ∀ x ∈ b :: rest, (x.date - b.date) % 86400 = 0) :
    ∃ out, ByDate.fill_date_gaps (b :: rest) = some out ∧
      out.head? = some b ∧
      List.Chain' (fun x y : ByDateOutput => y.date = x.date + 86400) out ∧
      (∀ x ∈ out, b.date ≤ x.date ∧
        x.date ≤ ((b :: rest).getLastD b).date) ∧
      (∀ x ∈ out, x ∈ b :: rest ∨
        (x.count = 0 ∧ x.date ∉ (b :: rest).map (fun y => y.date))) ∧
      (∀ x ∈ b :: rest, x ∈ out) ∧
      (out.map (fun x => x.date)).getLast? =
        some (((b :: rest).getLastD b).date) := by
  have hLmem : (b :: rest).getLastD b ∈ b :: rest :=
    getLastD_mem _ _ (List.cons_ne_nil _ _)
  have hble : ∀ x ∈ b :: rest, b.date ≤ x.date := by
    intro x hx
    rcases List.mem_cons.mp hx with h1 | h2
    · subst h1; exact le_refl _
    · exact le_of_lt ((List.pairwise_cons.mp hsorted).1 x h2)
  have hLd : b.date ≤ ((b :: rest).getLastD b).date := hble _ hLmem
  have hmodL := halign _ hLmem
  have hLdate : ((b :: rest).getLastD b).date =
      b.date + 86400 * (((((b :: rest).getLastD b).date - b.date).toNat / 86400 : Nat) : Int) := by
    omega
  have hal : ∀ x ∈ b :: rest, ∃ k : Nat,
      k ≤ (((b :: rest).getLastD b).date - b.date).toNat / 86400 ∧
      x.date = b.date + 86400 * k := by
    intro x hx
    have hmod := halign x hx
    have hxle : x.date ≤ ((b :: rest).getLastD b).date :=
      sorted_le_getLastD _ _ hsorted x hx
    have hbx := hble x hx
    exact ⟨(x.date - b.date).toNat / 86400, by omega, by omega⟩
  have hlast : (b :: rest) ≠ [] →
      ((b :: rest).getLastD (ByDateOutput.mk 0 0)).date =
        b.date + 86400 * (((((b :: rest).getLastD b).date - b.date).toNat / 86400 : Nat) : Int) := by
    intro _
    rw [getLastD_indep (b :: rest) (ByDateOutput.mk 0 0) b (List.cons_ne_nil _ _)]
    exact hLdate
  have hfuel : (((b :: rest).getLastD b).date - b.date).toNat / 86400 +
      (b :: rest).length <
      (((b :: rest).getLastD b).date - b.date).toNat / 86400 +
      (b :: rest).length + 1 := by omega
  obtain ⟨out, hA, _, _, hD, hE, hF, hG, hH, hI⟩ :=
    fillFromAux_spec
      ((((b :: rest).getLastD b).date - b.date).toNat / 86400 +
        (b :: rest).length + 1)
      b.date (b :: rest)
      ((((b :: rest).getLastD b).date - b.date).toNat / 86400)
      hal hsorted hlast hfuel
  refine ⟨out, hA, hD b rfl rfl, hE, ?_, hG, hH, ?_⟩
  · intro x hx
    obtain ⟨h1, h2⟩ := hF x hx
    exact ⟨h1, by omega⟩
  · have hI2 := hI (List.cons_ne_nil _ _)
    rw [hI2]
    simp only [Option.some.injEq]
    omega

/-- Witness for C7, the spec's gap-fill example: the buckets 2020-03-13
(day 18334, count 15) and 2020-03-16 (day 18337, count 45) satisfy both
hypotheses, the theorem's conclusion holds for them, and concretely the
code yields exactly the 4 buckets 13,14,15,16 with the two inserted
buckets at count 0 (buckets[2].count = 0). -/
theorem fill_date_gaps_fills_exactly_witness :
    List.Pairwise (fun x y : ByDateOutput => x.date < y.date)
      [ ByDateOutput.mk (86400 * 18334) 15, ByDateOutput.mk (86400 * 18337) 45 ] ∧
    (∀ x ∈ [ ByDateOutput.mk (86400 * 18334) 15, ByDateOutput.mk (86400 * 18337) 45 ],
      (x.date - (ByDateOutput.mk (86400 * 18334) 15).date) % 86400 = 0) ∧
    (∃ out, ByDate.fill_date_gaps
        [ ByDateOutput.mk (86400 * 18334) 15, ByDateOutput.mk (86400 * 18337) 45 ] = some out ∧
      out.head? = some (ByDateOutput.mk (86400 * 18334) 15) ∧
      List.Chain' (fun x y : ByDateOutput => y.date = x.date + 86400) out ∧
      (∀ x ∈ out, (ByDateOutput.mk (86400 * 18334) 15).date ≤ x.date ∧
        x.date ≤ (([ ByDateOutput.mk (86400 * 18334) 15,
          ByDateOutput.mk (86400 * 18337) 45 ]).getLastD
            (ByDateOutput.mk (86400 * 18334) 15)).date) ∧
      (∀ x ∈ out,
        x ∈ [ ByDateOutput.mk (86400 * 18334) 15, ByDateOutput.mk (86400 * 18337) 45 ] ∨
        (x.count = 0 ∧ x.date ∉
          ([ ByDateOutput.mk (86400 * 18334) 15,
             ByDateOutput.mk (86400 * 18337) 45 ]).map (fun y => y.date))) ∧
      (∀ x ∈ [ ByDateOutput.mk (86400 * 18334) 15, ByDateOutput.mk (86400 * 18337) 45 ],
        x ∈ out) ∧
      (out.map (fun x => x.date)).getLast? =
        some ((([ ByDateOutput.mk (86400 * 18334) 15,
          ByDateOutput.mk (86400 * 18337) 45 ]).getLastD
            (ByDateOutput.mk (86400 * 18334) 15)).date)) ∧
    ByDate.fill_date_gaps
        [ ByDateOutput.mk (86400 * 18334) 15, ByDateOutput.mk (86400 * 18337) 45 ] =
      some [ ByDateOutput.mk (86400 * 18334) 15, ByDateOutput.mk (86400 * 18335) 0,
             ByDateOutput.mk (86400 * 18336) 0, ByDateOutput.mk (86400 * 18337) 45 ] :=
  ⟨by decide, by decide,
    fill_date_gaps_fills_exactly
      (ByDateOutput.mk (86400 * 18334) 15)
      [ ByDateOutput.mk (86400 * 18337) 45 ]
      (by decide) (by decide),
    by decide⟩
